import Mathlib

/-!
Shallow embedding of the `leveldbbench` benchmark harness
(`src/docutil/doc.go`, package `leveldbbench`).

Machine integers are modelled as `Nat` with explicit reduction modulo
`2 ^ 32` / `2 ^ 64` where Go's fixed-width arithmetic wraps.  Byte
strings are `List Nat` whose elements are bytes.  Go panics (out of
range `PutUint64` / array slicing) are modelled as `Option.none`.
-/

namespace LevelDBBench

/-! ### Byte-level primitives (Go `encoding/binary`) -/

/-- Big-endian 8-byte encoding of a 64-bit word, most significant byte first. -/
def beBytes8 (x : Nat) : List Nat :=
  [x / 2 ^ 56 % 256, x / 2 ^ 48 % 256, x / 2 ^ 40 % 256, x / 2 ^ 32 % 256,
   x / 2 ^ 24 % 256, x / 2 ^ 16 % 256, x / 2 ^ 8 % 256, x % 256]

/-- Little-endian 8-byte encoding of a 64-bit word, least significant byte first. -/
def leBytes8 (x : Nat) : List Nat :=
  [x % 256, x / 2 ^ 8 % 256, x / 2 ^ 16 % 256, x / 2 ^ 24 % 256,
   x / 2 ^ 32 % 256, x / 2 ^ 40 % 256, x / 2 ^ 48 % 256, x / 2 ^ 56 % 256]

/-- Big-endian 4-byte encoding of a 32-bit word. -/
def wordBytesBE (x : Nat) : List Nat :=
  [x / 2 ^ 24 % 256, x / 2 ^ 16 % 256, x / 2 ^ 8 % 256, x % 256]

/-- Go `binary.BigEndian.PutUint64(buf, x)`: overwrite the first 8 bytes of
`buf` with the big-endian bytes of `x`; Go panics when `len(buf) < 8`,
modelled as `none`. -/
def putUint64BE (buf : List Nat) (x : Nat) : Option (List Nat) :=
  if buf.length < 8 then none else some (beBytes8 x ++ buf.drop 8)

/-- Go `binary.LittleEndian.PutUint64(buf, x)`: overwrite the first 8 bytes of
`buf` with the little-endian bytes of `x`; Go panics when `len(buf) < 8`,
modelled as `none`. -/
def putUint64LE (buf : List Nat) (x : Nat) : Option (List Nat) :=
  if buf.length < 8 then none else some (leBytes8 x ++ buf.drop 8)

/-- Go array slice `a[lo:hi]`: panics (`none`) unless `lo ≤ hi ≤ len(a)`. -/
def arraySlice (a : List Nat) (lo hi : Nat) : Option (List Nat) :=
  if lo ≤ hi ∧ hi ≤ a.length then some ((a.take hi).drop lo) else none

/-! ### SHA-1 (Go `crypto/sha1.Sum`)

A direct embedding of the SHA-1 algorithm over bytes-as-`Nat`: 32-bit
words are `Nat` values kept below `2 ^ 32` with `w32`. -/

/-- Reduce to a 32-bit word. -/
def w32 (x : Nat) : Nat := x % 4294967296

/-- Rotate a 32-bit word left by `n` bits. -/
def rotl32 (x n : Nat) : Nat := w32 ((x <<< n) ||| (x >>> (32 - n)))

/-- Group a byte list into big-endian 32-bit words, four bytes per word. -/
def bytesToWordsBE : List Nat → List Nat
  | b0 :: b1 :: b2 :: b3 :: rest =>
      (((b0 * 256 + b1) * 256 + b2) * 256 + b3) :: bytesToWordsBE rest
  | _ => []

/-- Extend a 16-word message schedule by `n` further words, each the
1-bit left rotation of the xor of the words 3, 8, 14 and 16 places back. -/
def extendW (ws : List Nat) : Nat → List Nat
  | 0 => ws
  | n + 1 =>
      let prev := extendW ws n
      let m := prev.length
      prev ++ [rotl32 (prev.getD (m - 3) 0 ^^^ prev.getD (m - 8) 0 ^^^
                       prev.getD (m - 14) 0 ^^^ prev.getD (m - 16) 0) 1]

/-- SHA-1 round function, by round index. -/
def sha1f (t b c d : Nat) : Nat :=
  if t < 20 then (b &&& c) ||| ((b ^^^ 4294967295) &&& d)
  else if t < 40 then b ^^^ c ^^^ d
  else if t < 60 then (b &&& c) ||| (b &&& d) ||| (c &&& d)
  else b ^^^ c ^^^ d

/-- SHA-1 round constant, by round index. -/
def sha1k (t : Nat) : Nat :=
  if t < 20 then 0x5A827999
  else if t < 40 then 0x6ED9EBA1
  else if t < 60 then 0x8F1BBCDC
  else 0xCA62C1D6

/-- The five SHA-1 working registers. -/
structure Regs where
  a : Nat
  b : Nat
  c : Nat
  d : Nat
  e : Nat

/-- The five-word SHA-1 chaining state. -/
structure Sha1State where
  h0 : Nat
  h1 : Nat
  h2 : Nat
  h3 : Nat
  h4 : Nat

/-- SHA-1 initial chaining state. -/
def sha1Init : Sha1State :=
  ⟨0x67452301, 0xEFCDAB89, 0x98BADCFE, 0x10325476, 0xC3D2E1F0⟩

/-- One SHA-1 round with schedule word `w` at round index `t`. -/
def sha1Round (w t : Nat) (r : Regs) : Regs :=
  let temp := w32 (rotl32 r.a 5 + sha1f t r.b r.c r.d + r.e + sha1k t + w)
  ⟨temp, r.a, rotl32 r.b 30, r.c, r.d⟩

/-- SHA-1 compression of one 64-byte block into the chaining state. -/
def sha1Compress (st : Sha1State) (block : List Nat) : Sha1State :=
  let ws := extendW (bytesToWordsBE block) 64
  let r0 : Regs := ⟨st.h0, st.h1, st.h2, st.h3, st.h4⟩
  let rf := (List.range 80).foldl (fun r t => sha1Round (ws.getD t 0) t r) r0
  ⟨w32 (st.h0 + rf.a), w32 (st.h1 + rf.b), w32 (st.h2 + rf.c),
   w32 (st.h3 + rf.d), w32 (st.h4 + rf.e)⟩

/-- SHA-1 padding: append `0x80`, zeros, then the 64-bit big-endian bit
length, reaching a multiple of 64 bytes. -/
def sha1Pad (msg : List Nat) : List Nat :=
  msg ++ [0x80] ++ List.replicate ((119 - msg.length % 64) % 64) 0 ++
    beBytes8 (8 * msg.length)

/-- Split a byte list into 64-byte blocks (`fuel` bounds the recursion by
the list length). -/
def chunks64Aux : Nat → List Nat → List (List Nat)
  | 0, _ => []
  | _ + 1, [] => []
  | n + 1, l => l.take 64 :: chunks64Aux n (l.drop 64)

/-- Split a byte list into 64-byte blocks. -/
def chunks64 (l : List Nat) : List (List Nat) := chunks64Aux l.length l

/-- Go `sha1.Sum(data)`: the 20-byte SHA-1 digest of a byte list. -/
def sha1Sum (msg : List Nat) : List Nat :=
  let st := (chunks64 (sha1Pad msg)).foldl sha1Compress sha1Init
  wordBytesBE st.h0 ++ wordBytesBE st.h1 ++ wordBytesBE st.h2 ++
    wordBytesBE st.h3 ++ wordBytesBE st.h4

/-! ### Key/value generation (`makeKV`) and the known-key registry -/

/-- Keys and values are byte strings. -/
abbrev Key := List Nat

/-- The shared seeded random source `randSrc`: an abstract byte stream and
the number of bytes consumed so far.  `randSrc.Read(buf)` fills `buf` with
the next `len(buf)` stream bytes. -/
structure RandSrc where
  stream : Nat → Nat
  pos : Nat

/-- Go `randSrc.Read(tmpValue)` for a buffer of `n` bytes: the bytes read
and the advanced source. -/
def randSrcRead (src : RandSrc) (n : Nat) : List Nat × RandSrc :=
  ((List.range n).map (fun i => src.stream (src.pos + i) % 256),
   ⟨src.stream, src.pos + n⟩)

/-- The `knownKeys` map (`map[string][]byte`), modelled as an association
list from key bytes to value bytes, in insertion order. -/
abbrev Registry := List (Key × Key)

/-- The keys currently present in the registry. -/
def regKeys (reg : Registry) : List Key := reg.map Prod.fst

/-- Go map assignment `knownKeys[string(tmpKey)] = tmpKey`: overwrite the
entry when the key is present, append a new entry otherwise. -/
def registryInsert (reg : Registry) (k : Key) : Registry :=
  if k ∈ regKeys reg then
    reg.map (fun p => if p.1 = k then (p.1, k) else p)
  else reg ++ [(k, k)]

/-- The mutable state touched by `makeKV`: the known-key registry and the
shared random source. -/
structure GenState where
  knownKeys : Registry
  randSrc : RandSrc

/-- The key built by `makeKV(seed, valueSize, sequential)` for key length
`keySize` (the `*keySize` flag).  Sequential mode writes the big-endian
bytes of `math.MaxUint64 - seed` into a fresh `keySize`-byte buffer;
non-sequential mode writes the little-endian bytes of `seed`, hashes the
buffer with SHA-1 and slices the 20-byte digest to `keySize` bytes.
`none` marks the Go panics: `PutUint64` on a buffer shorter than 8 bytes,
and slicing the digest array past 20 bytes. -/
def makeKVkey (keySize seed : Nat) (sequential : Bool) : Option Key :=
  let tmpKey := List.replicate keySize 0
  if sequential then
    putUint64BE tmpKey (2 ^ 64 - 1 - seed % 2 ^ 64)
  else
    match putUint64LE tmpKey seed with
    | none => none
    | some buf => arraySlice (sha1Sum buf) 0 keySize

/-- Full `makeKV`: build the key, register it in `knownKeys` under its own
bytes, then draw `valueSize` random bytes for the value. -/
def makeKV (keySize seed valueSize : Nat) (sequential : Bool) (st : GenState) :
    Option ((Key × List Nat) × GenState) :=
  match makeKVkey keySize seed sequential with
  | none => none
  | some k =>
      let reg := registryInsert st.knownKeys k
      let (v, src) := randSrcRead st.randSrc valueSize
      some ((k, v), ⟨reg, src⟩)

/-- The indices written by `writeData(… startIndex, writeLimit …)`:
`startIndex, startIndex + 1, …, startIndex + writeLimit - 1`. -/
def writeIndices (startIndex writeLimit : Nat) : List Nat :=
  List.range' startIndex writeLimit

/-- The registry after a write phase generates one key per index in
`indices` (the projection of `writeData`'s loop onto the registry).
`none` when some `makeKV` call panics. -/
def phaseRegistry (keySize : Nat) (sequential : Bool) :
    List Nat → Registry → Option Registry
  | [], reg => some reg
  | i :: rest, reg =>
      match makeKVkey keySize i sequential with
      | none => none
      | some k => phaseRegistry keySize sequential rest (registryInsert reg k)

/-! ### Read phases (`readSeq`, `readRandom`)

Sequential models of the two read loops.  Operations inside a phase run
concurrently in Go, but the touch counter logic is modelled in program
order; a `fuel` argument bounds the number of iterator passes, `none`
meaning the loop has not terminated within that many passes. -/

/-- One pass of `readSeq`'s inner `for iter.Next()` loop over a backend
holding `numEntries` live entries: each touch increments the counter and
the loop breaks out as soon as the counter reaches `limit`.  Returns the
new counter and whether `break benchLoop` fired. -/
def seqPass : Nat → Nat → Nat → Nat × Bool
  | 0, c, _ => (c, false)
  | n + 1, c, limit =>
      if limit ≤ c + 1 then (c + 1, true) else seqPass n (c + 1) limit

/-- Result of `readSeq`: normal termination with the number of iterator
passes opened and the final touch count, or `log.Fatal` on an iterator
error. -/
inductive SeqReadResult
  | finished (passes touches : Nat)
  | fatal (msg : String)
  deriving DecidableEq

/-- The `benchLoop` of `readSeq`: repeatedly open an iterator over the
`numEntries` live entries; when a pass ends without reaching `limit`,
check `iter.Error()` (fatal when set) and open a new pass. -/
def readSeqLoop (numEntries : Nat) (iterErr : Option String) (limit : Nat) :
    Nat → Nat → Option SeqReadResult
  | 0, _ => none
  | fuel + 1, c =>
      let res := seqPass numEntries c limit
      if res.2 then some (SeqReadResult.finished 1 res.1)
      else
        match iterErr with
        | some e => some (SeqReadResult.fatal e)
        | none =>
            match readSeqLoop numEntries iterErr limit fuel res.1 with
            | none => none
            | some (SeqReadResult.finished p t) =>
                some (SeqReadResult.finished (p + 1) t)
            | some (SeqReadResult.fatal e) => some (SeqReadResult.fatal e)

/-- One pass of `readRandom`'s inner `for _, randKey := range knownKeys`
loop: each key spawns a `db.Get(randKey, ro)` whose two return values are
discarded (no error check), the counter is incremented, and the loop
breaks out as soon as the counter reaches `limit`. -/
def randPass (get : Key → Except String (List Nat)) :
    List Key → Nat → Nat → Nat × Bool
  | [], c, _ => (c, false)
  | k :: rest, c, limit =>
      let _ := get k
      if limit ≤ c + 1 then (c + 1, true) else randPass get rest (c + 1) limit

/-- The `benchLoop` of `readRandom`: cycle over the registry keys until the
touch count reaches `limit`.  There is no error path: `db.Get`'s error is
discarded. -/
def readRandomLoop (keys : List Key) (get : Key → Except String (List Nat))
    (limit : Nat) : Nat → Nat → Option Nat
  | 0, _ => none
  | fuel + 1, c =>
      let res := randPass get keys c limit
      if res.2 then some res.1
      else readRandomLoop keys get limit fuel res.1

/-! ### Error-handling sites -/

/-- Whether the process is still running or `log.Fatal` has terminated it. -/
inductive RunOutcome
  | normal
  | fatalExit
  deriving DecidableEq

/-- Error handling around `db.Put` in `writeData`:
`if err != nil { log.Fatal() }`. -/
def putOutcome (res : Except String Unit) : RunOutcome :=
  match res with
  | Except.ok _ => RunOutcome.normal
  | Except.error _ => RunOutcome.fatalExit

/-- Error handling after a `readSeq` pass: `err := iter.Error();
if err != nil { log.Fatal() }`. -/
def iterOutcome (iterErr : Option String) : RunOutcome :=
  match iterErr with
  | none => RunOutcome.normal
  | some _ => RunOutcome.fatalExit

/-- Error handling in `runFullCompact` around `db.CompactRange`:
`if err != nil { log.Fatal() }`. -/
def compactOutcome (res : Except String Unit) : RunOutcome :=
  match res with
  | Except.ok _ => RunOutcome.normal
  | Except.error _ => RunOutcome.fatalExit

/-- Error handling around `db.Get` in `readRandom`: there is none — the
statement `db.Get(randKey, ro)` discards both return values, so the run
continues whatever the backend answers. -/
def getOutcome (res : Except String (List Nat)) : RunOutcome :=
  let _ := res
  RunOutcome.normal

/-! ### Result recorder (`NewTestResult`) -/

/-- A backend handle, for the recorder: `statsAt n` is the statistics
snapshot the backend would report to the `n`-th `db.Stats` query, and
`statsQueries` counts the queries made so far. -/
structure DBHandle where
  statsAt : Nat → Nat
  statsQueries : Nat

/-- One benchmark phase record (`TestResult`).  Times are rational numbers
of seconds (Go's `time.Time` / float64 arithmetic modelled exactly). -/
structure TestResult where
  startTime : ℚ
  endTime : ℚ
  testDuration : ℚ
  description : String
  opCount : Nat
  stats : Nat
  opRate : ℚ

/-- Go `NewTestResult(startTime, endTime, desc, opCount, db)`: query the
backend statistics once, set the duration to `endTime - startTime` and the
operation rate to `opCount` divided by the duration in seconds.  Returns
the record and the handle after its single `db.Stats` call. -/
def NewTestResult (startTime endTime : ℚ) (desc : String) (opCount : Nat)
    (db : DBHandle) : TestResult × DBHandle :=
  let s := db.statsAt db.statsQueries
  (⟨startTime, endTime, endTime - startTime, desc, opCount, s,
    (opCount : ℚ) / (endTime - startTime)⟩,
   ⟨db.statsAt, db.statsQueries + 1⟩)

/-! ### The fixed phase script (`LevelDBBenchCmd.RunE`) -/

/-- The configuration flags of `leveldbbench`. -/
structure Config where
  smallFillLimit : Nat
  largeFillLimit : Nat
  readLimit : Nat
  smallValueSize : Nat
  largeValueSize : Nat
  keySize : Nat
  degreeOfParallelism : Nat
  noWriteMerge : Bool
  syncWrites : Bool
  dontFillCache : Bool
  readStrict : Bool

/-- The backend operation a phase performs. -/
inductive PhaseOp
  | write (valueSize startIndex writeLimit : Nat) (sequential : Bool)
  | seqRead (limit : Nat)
  | randRead (limit : Nat)
  | compactFull
  deriving DecidableEq

/-- One step of the benchmark script: the operation, the description
passed to `NewTestResult`, and the operation count recorded. -/
structure PhaseRecord where
  op : PhaseOp
  description : String
  opCount : Nat
  deriving DecidableEq

/-- The fixed phase sequence executed by `LevelDBBenchCmd.RunE`, in
program order; each entry yields exactly one `TestResult` appended to
`trs`. -/
def benchScript (cfg : Config) : List PhaseRecord :=
  [⟨PhaseOp.write cfg.smallValueSize 0 cfg.smallFillLimit true,
      "small seq fill", cfg.smallFillLimit⟩,
   ⟨PhaseOp.write cfg.smallValueSize 0 cfg.smallFillLimit true,
      "small seq overwrite", cfg.smallFillLimit⟩,
   ⟨PhaseOp.write cfg.smallValueSize 0 cfg.smallFillLimit false,
      "small rand fill", cfg.smallFillLimit⟩,
   ⟨PhaseOp.write cfg.smallValueSize 0 cfg.smallFillLimit false,
      "small rand overwrite", cfg.smallFillLimit⟩,
   ⟨PhaseOp.write cfg.smallValueSize 0 cfg.smallFillLimit false,
      "small rand overwrite", cfg.smallFillLimit⟩,
   ⟨PhaseOp.write cfg.smallValueSize 0 cfg.smallFillLimit false,
      "small rand overwrite", cfg.smallFillLimit⟩,
   ⟨PhaseOp.seqRead cfg.readLimit, "sequential read", cfg.readLimit⟩,
   ⟨PhaseOp.write cfg.largeValueSize (cfg.smallFillLimit * 2)
      cfg.largeFillLimit false, "large rand fill", cfg.largeFillLimit⟩,
   ⟨PhaseOp.write cfg.largeValueSize (cfg.smallFillLimit * 2)
      cfg.largeFillLimit false, "large rand overwrite", cfg.largeFillLimit⟩,
   ⟨PhaseOp.seqRead cfg.readLimit, "sequential read", cfg.readLimit⟩,
   ⟨PhaseOp.randRead cfg.readLimit, "random read", cfg.readLimit⟩,
   ⟨PhaseOp.compactFull, "compaction", 1⟩]

/-! ### Admission-controlled executor

An interleaving small-step model of the concurrency skeleton shared by
`writeData`, `readSeq` and `readRandom`:

  pool <- true; wg.Add(1); go func() { <op>; wg.Done(); <-pool }()
  …
  wg.Wait()

Goroutines are indistinguishable, so the state counts them by phase:
`working` goroutines are between spawn and `wg.Done()`, `done` goroutines
have called `wg.Done()` but still hold their admission slot, `released`
goroutines have executed `<-pool`.  A slot is held from the `pool <- true`
of the launching iteration until `<-pool`. -/
structure ExecState where
  launched : Nat
  working : Nat
  doneCnt : Nat
  released : Nat
  finished : Bool
  deriving DecidableEq

/-- One interleaving step of a phase launching `C` operations through a
semaphore channel of capacity `L`. -/
inductive ExecStep (C L : Nat) : ExecState → ExecState → Prop
  | launch (s : ExecState) :
      s.finished = false → s.launched < C → s.working + s.doneCnt < L →
      ExecStep C L s
        ⟨s.launched + 1, s.working + 1, s.doneCnt, s.released, false⟩
  | opDone (s : ExecState) :
      0 < s.working →
      ExecStep C L s
        ⟨s.launched, s.working - 1, s.doneCnt + 1, s.released, s.finished⟩
  | slotFree (s : ExecState) :
      0 < s.doneCnt →
      ExecStep C L s
        ⟨s.launched, s.working, s.doneCnt - 1, s.released + 1, s.finished⟩
  | barrier (s : ExecState) :
      s.finished = false → s.launched = C → s.working = 0 →
      ExecStep C L s
        ⟨s.launched, s.working, s.doneCnt, s.released, true⟩

/-- States reachable from the start of a phase (no goroutine spawned,
`wg.Wait` not yet returned). -/
inductive ExecReachable (C L : Nat) : ExecState → Prop
  | init : ExecReachable C L ⟨0, 0, 0, 0, false⟩
  | step {s s' : ExecState} :
      ExecReachable C L s → ExecStep C L s s' → ExecReachable C L s'

/-! ### Helper lemmas -/

theorem drop_replicate_eq (m : Nat) : ∀ (k : Nat) (a : Nat),
    (List.replicate k a).drop m = List.replicate (k - m) a := by
  induction m with
  | zero => intro k a; simp
  | succ m ih =>
      intro k a
      cases k with
      | zero => simp
      | succ k => simp [List.replicate_succ, ih k a]

theorem beBytes8_inj {x y : Nat} (hx : x < 2 ^ 64) (hy : y < 2 ^ 64)
    (h : beBytes8 x = beBytes8 y) : x = y := by
  simp only [beBytes8, List.cons.injEq, and_true] at h
  omega

theorem sha1Sum_length (msg : List Nat) : (sha1Sum msg).length = 20 := by
  simp [sha1Sum, wordBytesBE]

theorem makeKVkey_seq_eq {k : Nat} (i : Nat) (hk : 8 ≤ k) (hi : i < 2 ^ 64) :
    makeKVkey k i true =
      some (beBytes8 (2 ^ 64 - 1 - i) ++ List.replicate (k - 8) 0) := by
  simp [makeKVkey, putUint64BE, drop_replicate_eq, Nat.not_lt.mpr hk]
  congr 1
  omega

/-- C1: in sequential mode the key is the big-endian 64-bit encoding of
(`math.MaxUint64 - index`) laid into a buffer of the configured key
length, and on the representable range two indices produce the same key
exactly when they are equal. -/
theorem seq_key_bigEndian_injective (k i j : Nat)
    (hk : 8 ≤ k) (hi : i < 2 ^ 64) (hj : j < 2 ^ 64) :
    makeKVkey k i true =
      some (beBytes8 (2 ^ 64 - 1 - i) ++ List.replicate (k - 8) 0) ∧
    (beBytes8 (2 ^ 64 - 1 - i) ++ List.replicate (k - 8) 0).length = k ∧
    (makeKVkey k i true = makeKVkey k j true ↔ i = j) := by
  refine ⟨makeKVkey_seq_eq i hk hi, ?_, ?_, ?_⟩
  · simp [beBytes8]
    omega
  · intro h
    rw [makeKVkey_seq_eq i hk hi, makeKVkey_seq_eq j hk hj] at h
    have h2 : beBytes8 (2 ^ 64 - 1 - i) = beBytes8 (2 ^ 64 - 1 - j) :=
      List.append_cancel_right (Option.some.injEq _ _ ▸ h)
    have h3 := beBytes8_inj (by omega) (by omega) h2
    omega
  · intro h
    rw [h]

/-- C1 witness at key size 8 and indices 0, 1. -/
theorem seq_key_bigEndian_injective_witness :
    makeKVkey 8 0 true =
      some (beBytes8 (2 ^ 64 - 1 - 0) ++ List.replicate (8 - 8) 0) ∧
    (beBytes8 (2 ^ 64 - 1 - 0) ++ List.replicate (8 - 8) 0).length = 8 ∧
    (makeKVkey 8 0 true = makeKVkey 8 1 true ↔ 0 = 1) :=
  seq_key_bigEndian_injective 8 0 1 (by decide) (by decide) (by decide)

theorem makeKVkey_rand_eq {k : Nat} (i : Nat) (hk8 : 8 ≤ k) (hk20 : k ≤ 20) :
    makeKVkey k i false =
      some ((sha1Sum (leBytes8 i ++ List.replicate (k - 8) 0)).take k) := by
  simp [makeKVkey, putUint64LE, Nat.not_lt.mpr hk8, drop_replicate_eq,
    arraySlice, sha1Sum_length, hk20]

/-- C2: in non-sequential mode the key is the SHA-1 digest of the
key-length buffer holding the little-endian index, truncated to the key
length; the key depends only on the index, not on the generator state, so
repeated generation with the same index yields the identical key. -/
theorem rand_key_sha1_deterministic (k i : Nat) (hk8 : 8 ≤ k) (hk20 : k ≤ 20) :
    makeKVkey k i false =
      some ((sha1Sum (leBytes8 i ++ List.replicate (k - 8) 0)).take k) ∧
    (∀ (vs vs' : Nat) (st st' : GenState),
      (makeKV k i vs false st).map (fun r => r.1.1) =
      (makeKV k i vs' false st').map (fun r => r.1.1)) := by
  refine ⟨makeKVkey_rand_eq i hk8 hk20, ?_⟩
  intro vs vs' st st'
  cases h : makeKVkey k i false <;> simp [makeKV, h, randSrcRead]

/-- C2 witness at key size 8 and index 0. -/
theorem rand_key_sha1_deterministic_witness :
    makeKVkey 8 0 false =
      some ((sha1Sum (leBytes8 0 ++ List.replicate (8 - 8) 0)).take 8) ∧
    (∀ (vs vs' : Nat) (st st' : GenState),
      (makeKV 8 0 vs false st).map (fun r => r.1.1) =
      (makeKV 8 0 vs' false st').map (fun r => r.1.1)) :=
  rand_key_sha1_deterministic 8 0 (by decide) (by decide)

/-- C10: key generation runs without a Go panic exactly when the key size
is at least 8 (both modes write a 64-bit word into the buffer) and, in
non-sequential mode, at most 20 (the key is a slice of the 20-byte SHA-1
digest array). -/
theorem makeKV_panic_bounds (k i : Nat) :
    ((makeKVkey k i true).isSome ↔ 8 ≤ k) ∧
    ((makeKVkey k i false).isSome ↔ 8 ≤ k ∧ k ≤ 20) := by
  constructor
  · by_cases hk : k < 8
    · simp [makeKVkey, putUint64BE, hk]
    · simp [makeKVkey, putUint64BE, hk]
      omega
  · by_cases hk : k < 8
    · simp [makeKVkey, putUint64LE, hk]
    · by_cases hk2 : k ≤ 20
      · simp [makeKVkey, putUint64LE, hk, arraySlice, sha1Sum_length, hk2]
        omega
      · simp [makeKVkey, putUint64LE, hk, arraySlice, sha1Sum_length, hk2]

/-- C3 counterexample: a backend `Get` error during the random-read phase
does not terminate the process.  `readRandom` discards both return values
of `db.Get(randKey, ro)`: with a single registered key and a backend whose
every `Get` fails, the phase still runs to completion, performing both
touches — continued execution, no fatal exit. -/
theorem get_error_not_fatal :
    getOutcome (Except.error "io") = RunOutcome.normal ∧
    RunOutcome.normal ≠ RunOutcome.fatalExit ∧
    readRandomLoop [[0]] (fun _ => Except.error "io") 2 2 0 = some 2 :=
  ⟨rfl, by decide, by decide⟩

/-- C3 amended: an error returned by `Put` (write phases), by the iterator
(sequential-read phases) or by `CompactRange` (compaction) terminates the
process immediately via `log.Fatal`, with no retry; an error returned by
`Get` during the random-read phase is silently discarded and execution
continues. -/
theorem backend_error_policy (e : String) (res : Except String (List Nat)) :
    putOutcome (Except.error e) = RunOutcome.fatalExit ∧
    iterOutcome (some e) = RunOutcome.fatalExit ∧
    compactOutcome (Except.error e) = RunOutcome.fatalExit ∧
    getOutcome res = RunOutcome.normal :=
  ⟨rfl, rfl, rfl, rfl⟩

/-- C4: the run executes exactly the fixed ordered script — small
sequential fill, small sequential overwrite, small random fill, three
small random overwrites, a sequential read, a large random fill at indices
from `2 * smallFillLimit`, a large random overwrite at the same indices, a
second sequential read, a random read and a full-range compaction — one
result record per phase, in that order. -/
theorem benchScript_fixed_order (cfg : Config) :
    benchScript cfg =
      [⟨PhaseOp.write cfg.smallValueSize 0 cfg.smallFillLimit true,
          "small seq fill", cfg.smallFillLimit⟩,
       ⟨PhaseOp.write cfg.smallValueSize 0 cfg.smallFillLimit true,
          "small seq overwrite", cfg.smallFillLimit⟩,
       ⟨PhaseOp.write cfg.smallValueSize 0 cfg.smallFillLimit false,
          "small rand fill", cfg.smallFillLimit⟩,
       ⟨PhaseOp.write cfg.smallValueSize 0 cfg.smallFillLimit false,
          "small rand overwrite", cfg.smallFillLimit⟩,
       ⟨PhaseOp.write cfg.smallValueSize 0 cfg.smallFillLimit false,
          "small rand overwrite", cfg.smallFillLimit⟩,
       ⟨PhaseOp.write cfg.smallValueSize 0 cfg.smallFillLimit false,
          "small rand overwrite", cfg.smallFillLimit⟩,
       ⟨PhaseOp.seqRead cfg.readLimit, "sequential read", cfg.readLimit⟩,
       ⟨PhaseOp.write cfg.largeValueSize (cfg.smallFillLimit * 2)
          cfg.largeFillLimit false, "large rand fill", cfg.largeFillLimit⟩,
       ⟨PhaseOp.write cfg.largeValueSize (cfg.smallFillLimit * 2)
          cfg.largeFillLimit false, "large rand overwrite",
          cfg.largeFillLimit⟩,
       ⟨PhaseOp.seqRead cfg.readLimit, "sequential read", cfg.readLimit⟩,
       ⟨PhaseOp.randRead cfg.readLimit, "random read", cfg.readLimit⟩,
       ⟨PhaseOp.compactFull, "compaction", 1⟩] ∧
    (benchScript cfg).length = 12 :=
  ⟨rfl, rfl⟩

/-- C5: every phase record satisfies `OpRate = OpCount / (EndTime -
StartTime)` in seconds and `TestDuration = EndTime - StartTime`, and the
backend statistics are captured by exactly one `db.Stats` query, made at
phase end. -/
theorem testResult_rate_duration_stats (s e : ℚ) (d : String) (c : Nat)
    (db : DBHandle) :
    (NewTestResult s e d c db).1.opRate =
      ((NewTestResult s e d c db).1.opCount : ℚ) /
        ((NewTestResult s e d c db).1.endTime -
          (NewTestResult s e d c db).1.startTime) ∧
    (NewTestResult s e d c db).1.testDuration =
      (NewTestResult s e d c db).1.endTime -
        (NewTestResult s e d c db).1.startTime ∧
    (NewTestResult s e d c db).1.stats = db.statsAt db.statsQueries ∧
    (NewTestResult s e d c db).2.statsQueries = db.statsQueries + 1 :=
  ⟨rfl, rfl, rfl, rfl⟩

/-! ### Read-loop lemmas -/

theorem seqPass_eq (n : Nat) : ∀ c limit, c < limit →
    (seqPass n c limit).1 = min (c + n) limit ∧
    ((seqPass n c limit).2 = true ↔ limit ≤ c + n) := by
  induction n with
  | zero =>
      intro c limit h
      simp [seqPass]
      omega
  | succ n ih =>
      intro c limit h
      by_cases hb : limit ≤ c + 1
      · simp [seqPass, hb]
        omega
      · obtain ⟨ha, hbr⟩ := ih (c + 1) limit (by omega)
        constructor
        · simp only [seqPass, if_neg hb, ha]
          omega
        · simp only [seqPass, if_neg hb, hbr]
          omega

theorem seqPass_break_le (n : Nat) : ∀ c limit,
    (seqPass n c limit).2 = true → limit ≤ (seqPass n c limit).1 := by
  induction n with
  | zero => intro c limit h; simp [seqPass] at h
  | succ n ih =>
      intro c limit h
      by_cases hb : limit ≤ c + 1
      · simp [seqPass, hb]
      · simp only [seqPass, if_neg hb] at h ⊢
        exact ih (c + 1) limit h

theorem randPass_break_le (g : Key → Except String (List Nat)) :
    ∀ (ks : List Key) (c limit : Nat),
    (randPass g ks c limit).2 = true → limit ≤ (randPass g ks c limit).1 := by
  intro ks
  induction ks with
  | nil => intro c limit h; simp [randPass] at h
  | cons k rest ih =>
      intro c limit h
      by_cases hb : limit ≤ c + 1
      · simp [randPass, hb]
      · simp only [randPass, if_neg hb] at h ⊢
        exact ih (c + 1) limit h

theorem readSeqLoop_reaches_limit (E limit : Nat) (hE : 1 ≤ E) :
    ∀ fuel c, c < limit → limit ≤ c + fuel →
    ∃ p, readSeqLoop E none limit fuel c =
      some (SeqReadResult.finished p limit) := by
  intro fuel
  induction fuel with
  | zero => intro c h1 h2; omega
  | succ fuel ih =>
      intro c h1 h2
      obtain ⟨ha, hbr⟩ := seqPass_eq E c limit h1
      by_cases hb : limit ≤ c + E
      · refine ⟨1, ?_⟩
        have hb2 : (seqPass E c limit).2 = true := hbr.mpr hb
        have ha2 : (seqPass E c limit).1 = limit := by omega
        simp [readSeqLoop, hb2, ha2]
      · have hb2 : (seqPass E c limit).2 = false := by
          cases h' : (seqPass E c limit).2
          · rfl
          · exact absurd (hbr.mp h') hb
        have ha2 : (seqPass E c limit).1 = c + E := by omega
        obtain ⟨p, hp⟩ := ih (c + E) (by omega) (by omega)
        refine ⟨p + 1, ?_⟩
        simp [readSeqLoop, hb2, ha2, hp]

theorem readSeqLoop_empty (limit : Nat) :
    ∀ fuel c, readSeqLoop 0 none limit fuel c = none := by
  intro fuel
  induction fuel with
  | zero => intro c; rfl
  | succ fuel ih =>
      intro c
      simp [readSeqLoop, seqPass, ih c]

theorem readRandomLoop_empty (g : Key → Except String (List Nat))
    (limit : Nat) : ∀ fuel c, readRandomLoop [] g limit fuel c = none := by
  intro fuel
  induction fuel with
  | zero => intro c; rfl
  | succ fuel ih =>
      intro c
      simp [readRandomLoop, randPass, ih c]

theorem readSeqLoop_finished_le (E limit : Nat) :
    ∀ fuel c p t, readSeqLoop E none limit fuel c =
      some (SeqReadResult.finished p t) → limit ≤ t := by
  intro fuel
  induction fuel with
  | zero => intro c p t h; simp [readSeqLoop] at h
  | succ fuel ih =>
      intro c p t h
      simp only [readSeqLoop] at h
      cases hb : (seqPass E c limit).2 with
      | true =>
          rw [hb] at h
          simp at h
          have := seqPass_break_le E c limit hb
          omega
      | false =>
          rw [hb] at h
          simp only [Bool.false_eq_true, if_false] at h
          cases h' : readSeqLoop E none limit fuel (seqPass E c limit).1 with
          | none => rw [h'] at h; simp at h
          | some r =>
              rw [h'] at h
              cases r with
              | finished p' t' =>
                  simp at h
                  obtain ⟨_, ht⟩ := h
                  exact ht ▸ ih _ p' t' h'
              | fatal e => simp at h

theorem readRandomLoop_le (ks : List Key) (g : Key → Except String (List Nat))
    (limit : Nat) : ∀ fuel c t,
    readRandomLoop ks g limit fuel c = some t → limit ≤ t := by
  intro fuel
  induction fuel with
  | zero => intro c t h; simp [readRandomLoop] at h
  | succ fuel ih =>
      intro c t h
      simp only [readRandomLoop] at h
      cases hb : (randPass g ks c limit).2 with
      | true =>
          rw [hb] at h
          simp at h
          have := randPass_break_le g ks c limit hb
          omega
      | false =>
          rw [hb] at h
          simp only [Bool.false_eq_true, if_false] at h
          exact ih _ t h

/-- C6: the sequential reader counts touches globally across iterator
passes, reopening the iterator whenever a pass ends short of the limit,
and with at least one live entry it terminates with exactly `limit`
touches; with limit 500 over 100 live entries it completes 5 full passes
and no error path is taken. -/
theorem readSeq_counts_across_passes (E limit : Nat) (hE : 1 ≤ E)
    (hL : 1 ≤ limit) :
    (∃ p, readSeqLoop E none limit limit 0 =
      some (SeqReadResult.finished p limit)) ∧
    readSeqLoop 100 none 500 500 0 = some (SeqReadResult.finished 5 500) :=
  ⟨readSeqLoop_reaches_limit E limit hE limit 0 hL (by omega), by decide⟩

/-- C6 witness at 100 live entries and read limit 500. -/
theorem readSeq_counts_across_passes_witness :
    (∃ p, readSeqLoop 100 none 500 500 0 =
      some (SeqReadResult.finished p 500)) ∧
    readSeqLoop 100 none 500 500 0 = some (SeqReadResult.finished 5 500) :=
  readSeq_counts_across_passes 100 500 (by decide) (by decide)

/-- C7: a read phase yields a result only when its cumulative touch count
has reached the limit; with a nonzero limit the sequential reader over an
empty backend never terminates (no fuel suffices), and the random reader
over an empty known-key registry never terminates — its termination
requires a populated registry. -/
theorem read_phase_termination (limit : Nat)
    (g : Key → Except String (List Nat)) (hL : 1 ≤ limit) :
    (∀ fuel c, readSeqLoop 0 none limit fuel c = none) ∧
    (∀ fuel c, readRandomLoop [] g limit fuel c = none) ∧
    (∀ E fuel c p t, readSeqLoop E none limit fuel c =
      some (SeqReadResult.finished p t) → limit ≤ t) ∧
    (∀ ks fuel c t, readRandomLoop ks g limit fuel c = some t → limit ≤ t) :=
  ⟨readSeqLoop_empty limit, readRandomLoop_empty g limit,
   fun E fuel c p t h => readSeqLoop_finished_le E limit fuel c p t h,
   fun ks fuel c t h => readRandomLoop_le ks g limit fuel c t h⟩

/-- C7 witness at read limit 1 and an error-free backend. -/
theorem read_phase_termination_witness :
    (∀ fuel c, readSeqLoop 0 none 1 fuel c = none) ∧
    (∀ fuel c, readRandomLoop [] (fun _ => Except.ok []) 1 fuel c = none) ∧
    (∀ E fuel c p t, readSeqLoop E none 1 fuel c =
      some (SeqReadResult.finished p t) → 1 ≤ t) ∧
    (∀ ks fuel c t, readRandomLoop ks (fun _ => Except.ok []) 1 fuel c =
      some t → 1 ≤ t) :=
  read_phase_termination 1 (fun _ => Except.ok []) (by decide)

/-! ### Registry lemmas -/

theorem regKeys_insert (reg : Registry) (k : Key) :
    regKeys (registryInsert reg k) =
      if k ∈ regKeys reg then regKeys reg else regKeys reg ++ [k] := by
  by_cases h : k ∈ regKeys reg
  · rw [registryInsert, if_pos h, if_pos h, regKeys, regKeys, List.map_map]
    apply List.map_congr_left
    intro p _
    by_cases hp : p.1 = k <;> simp [hp]
  · rw [registryInsert, if_neg h, if_neg h, regKeys, regKeys, List.map_append]
    rfl

theorem regKeys_insert_mem (reg : Registry) (k x : Key) :
    x ∈ regKeys (registryInsert reg k) ↔ x ∈ regKeys reg ∨ x = k := by
  rw [regKeys_insert]
  by_cases h : k ∈ regKeys reg
  · rw [if_pos h]
    exact ⟨Or.inl, fun hx => hx.elim id (fun he => he ▸ h)⟩
  · rw [if_neg h]
    simp

theorem registryInsert_values (reg : Registry) (k : Key)
    (h : ∀ p ∈ reg, p.2 = p.1) : ∀ p ∈ registryInsert reg k, p.2 = p.1 := by
  intro p hp
  rw [registryInsert] at hp
  by_cases hm : k ∈ regKeys reg
  · rw [if_pos hm] at hp
    obtain ⟨q, hq, rfl⟩ := List.mem_map.mp hp
    by_cases hqk : q.1 = k
    · rw [if_pos hqk]
      exact hqk.symm
    · rw [if_neg hqk]
      exact h q hq
  · rw [if_neg hm] at hp
    rcases List.mem_append.mp hp with h1 | h2
    · exact h p h1
    · simp at h2
      subst h2
      rfl

theorem regKeys_insert_nodup (reg : Registry) (k : Key)
    (h : (regKeys reg).Nodup) : (regKeys (registryInsert reg k)).Nodup := by
  rw [regKeys_insert]
  by_cases hm : k ∈ regKeys reg
  · rwa [if_pos hm]
  · rw [if_neg hm]
    have := List.Nodup.concat hm h
    rwa [List.concat_eq_append] at this

theorem phaseRegistry_invariant (ks : Nat) (seq : Bool) :
    ∀ (indices : List Nat) (reg fin : Registry),
    phaseRegistry ks seq indices reg = some fin →
    ((∀ p ∈ reg, p.2 = p.1) → ∀ p ∈ fin, p.2 = p.1) ∧
    ((regKeys reg).Nodup → (regKeys fin).Nodup) ∧
    (∀ i ∈ indices, (makeKVkey ks i seq).isSome) ∧
    (∀ x : Key, x ∈ regKeys fin ↔
      x ∈ regKeys reg ∨ some x ∈ indices.map (fun i => makeKVkey ks i seq)) := by
  intro indices
  induction indices with
  | nil =>
      intro reg fin h
      simp only [phaseRegistry, Option.some.injEq] at h
      subst h
      simp
  | cons i rest ih =>
      intro reg fin h
      simp only [phaseRegistry] at h
      cases hk : makeKVkey ks i seq with
      | none => rw [hk] at h; simp at h
      | some k =>
          rw [hk] at h
          obtain ⟨iv, ind, ism, imem⟩ := ih (registryInsert reg k) fin h
          refine ⟨?_, ?_, ?_, ?_⟩
          · intro hreg
            exact iv (registryInsert_values reg k hreg)
          · intro hnd
            exact ind (regKeys_insert_nodup reg k hnd)
          · intro j hj
            rcases List.mem_cons.mp hj with rfl | hj'
            · simp [hk]
            · exact ism j hj'
          · intro x
            rw [imem x, regKeys_insert_mem]
            simp only [List.map_cons, List.mem_cons, hk, Option.some.injEq]
            tauto

theorem phaseRegistry_length (ks : Nat) (seq : Bool) (indices : List Nat)
    (fin : Registry) (h : phaseRegistry ks seq indices [] = some fin) :
    fin.length = ((indices.map (fun i => makeKVkey ks i seq)).dedup).length := by
  obtain ⟨_, ind, ism, imem⟩ := phaseRegistry_invariant ks seq indices [] fin h
  have hnd : (regKeys fin).Nodup := ind (by simp [regKeys])
  have hmemL : ∀ y : Option Key,
      (y ∈ (regKeys fin).map some ↔
       y ∈ (indices.map (fun i => makeKVkey ks i seq)).dedup) := by
    intro y
    rw [List.mem_dedup]
    cases y with
    | none =>
        constructor
        · intro hy
          obtain ⟨x, _, hx⟩ := List.mem_map.mp hy
          exact absurd hx (by simp)
        · intro hy
          obtain ⟨j, hj, hjn⟩ := List.mem_map.mp hy
          have := ism j hj
          rw [hjn] at this
          simp at this
    | some x =>
        rw [List.mem_map_of_injective (Option.some_injective _), imem x]
        simp [regKeys]
  have hM : ((regKeys fin).map some).Nodup :=
    hnd.map (Option.some_injective _)
  have hD : ((indices.map (fun i => makeKVkey ks i seq)).dedup).Nodup :=
    List.nodup_dedup _
  have htf : ((regKeys fin).map some).toFinset =
      ((indices.map (fun i => makeKVkey ks i seq)).dedup).toFinset := by
    apply Finset.ext
    intro y
    simp only [List.mem_toFinset]
    exact hmemL y
  have hlen := (List.perm_of_nodup_nodup_toFinset_eq hM hD htf).length_eq
  rw [List.length_map] at hlen
  rw [← hlen, regKeys, List.length_map]

/-- C8: the known-key registry is append-only (an insert never removes a
key), every entry stores its own key as its value, and after a write phase
over distinct indices the registry holds at most one entry per index, with
equality exactly when the mode produced no key collisions for those
indices. -/
theorem registry_appendOnly_selfRef_size (ks : Nat) (seq : Bool)
    (indices : List Nat) (fin : Registry) (hnd : indices.Nodup)
    (hrun : phaseRegistry ks seq indices [] = some fin) :
    (∀ (reg : Registry) (k x : Key),
      x ∈ regKeys reg → x ∈ regKeys (registryInsert reg k)) ∧
    (∀ p ∈ fin, p.2 = p.1) ∧
    fin.length ≤ indices.length ∧
    (fin.length = indices.length ↔
      (indices.map (fun i => makeKVkey ks i seq)).Nodup) := by
  obtain ⟨iv, _, _, _⟩ := phaseRegistry_invariant ks seq indices [] fin hrun
  have hlen := phaseRegistry_length ks seq indices fin hrun
  have hLlen : (indices.map (fun i => makeKVkey ks i seq)).length =
      indices.length := List.length_map _ _
  refine ⟨?_, iv (by simp), ?_, ?_⟩
  · intro reg k x hx
    rw [regKeys_insert_mem]
    exact Or.inl hx
  · calc fin.length = _ := hlen
      _ ≤ (indices.map (fun i => makeKVkey ks i seq)).length :=
          (List.dedup_sublist _).length_le
      _ = indices.length := hLlen
  · rw [hlen, ← hLlen]
    constructor
    · intro h
      have hds := (List.dedup_sublist
        (indices.map (fun i => makeKVkey ks i seq))).eq_of_length h
      rw [← hds]
      exact List.nodup_dedup _
    · intro h
      rw [List.dedup_eq_self.mpr h]

/-- C8 witness: a sequential write phase over indices 0 and 1 at key
size 8. -/
theorem registry_appendOnly_selfRef_size_witness :
    (∀ (reg : Registry) (k x : Key),
      x ∈ regKeys reg → x ∈ regKeys (registryInsert reg k)) ∧
    (∀ p ∈ ([([255, 255, 255, 255, 255, 255, 255, 255],
              [255, 255, 255, 255, 255, 255, 255, 255]),
             ([255, 255, 255, 255, 255, 255, 255, 254],
              [255, 255, 255, 255, 255, 255, 255, 254])] : Registry),
      p.2 = p.1) ∧
    ([([255, 255, 255, 255, 255, 255, 255, 255],
       [255, 255, 255, 255, 255, 255, 255, 255]),
      ([255, 255, 255, 255, 255, 255, 255, 254],
       [255, 255, 255, 255, 255, 255, 255, 254])] : Registry).length ≤
      ([0, 1] : List Nat).length ∧
    (([([255, 255, 255, 255, 255, 255, 255, 255],
        [255, 255, 255, 255, 255, 255, 255, 255]),
       ([255, 255, 255, 255, 255, 255, 255, 254],
        [255, 255, 255, 255, 255, 255, 255, 254])] : Registry).length =
        ([0, 1] : List Nat).length ↔
      (([0, 1] : List Nat).map (fun i => makeKVkey 8 i true)).Nodup) :=
  registry_appendOnly_selfRef_size 8 true [0, 1]
    [([255, 255, 255, 255, 255, 255, 255, 255],
      [255, 255, 255, 255, 255, 255, 255, 255]),
     ([255, 255, 255, 255, 255, 255, 255, 254],
      [255, 255, 255, 255, 255, 255, 255, 254])]
    (by decide) (by decide)

/-! ### Executor lemmas -/

theorem exec_invariant (C L : Nat) :
    ∀ s, ExecReachable C L s →
    s.working + s.doneCnt ≤ L ∧
    s.working + s.doneCnt + s.released = s.launched ∧
    s.launched ≤ C ∧
    (s.finished = true → s.launched = C ∧ s.working = 0) := by
  intro s h
  induction h with
  | init => simp
  | step hr hs ih =>
      obtain ⟨i1, i2, i3, i4⟩ := ih
      cases hs with
      | launch hf hc hl =>
          refine ⟨by simp; omega, by simp; omega, by simp; omega, by simp⟩
      | opDone hw =>
          refine ⟨by simp; omega, by simp; omega, by simp; omega, ?_⟩
          intro hfin
          obtain ⟨j1, j2⟩ := i4 hfin
          omega
      | slotFree hd =>
          refine ⟨by simp; omega, by simp; omega, by simp; omega, ?_⟩
          intro hfin
          obtain ⟨j1, j2⟩ := i4 hfin
          exact ⟨j1, j2⟩
      | barrier hf hC hw =>
          exact ⟨by simp; omega, by simp; omega, by simp; omega,
                 fun _ => ⟨hC, hw⟩⟩

/-- C9: in every reachable state of a phase running `C` operations under
admission limit `L`, at most `L` operations are in flight, and once the
completion barrier (`wg.Wait`) has returned, all `C` operations were
launched and every one of them has completed. -/
theorem executor_bounded_inflight (C L : Nat) (s : ExecState)
    (h : ExecReachable C L s) :
    s.working ≤ L ∧
    (s.finished = true →
      s.launched = C ∧ s.working = 0 ∧ s.doneCnt + s.released = C) := by
  obtain ⟨i1, i2, i3, i4⟩ := exec_invariant C L s h
  refine ⟨by omega, fun hf => ?_⟩
  obtain ⟨j1, j2⟩ := i4 hf
  exact ⟨j1, j2, by omega⟩

/-- C9 witness: the final state of a one-operation phase with admission
limit 1, reached by launch, completion, and the barrier. -/
theorem executor_bounded_inflight_witness :
    (⟨1, 0, 1, 0, true⟩ : ExecState).working ≤ 1 ∧
    ((⟨1, 0, 1, 0, true⟩ : ExecState).finished = true →
      (⟨1, 0, 1, 0, true⟩ : ExecState).launched = 1 ∧
      (⟨1, 0, 1, 0, true⟩ : ExecState).working = 0 ∧
      (⟨1, 0, 1, 0, true⟩ : ExecState).doneCnt +
        (⟨1, 0, 1, 0, true⟩ : ExecState).released = 1) :=
  executor_bounded_inflight 1 1 ⟨1, 0, 1, 0, true⟩
    (ExecReachable.step
      (ExecReachable.step
        (ExecReachable.step ExecReachable.init
          (ExecStep.launch _ rfl (by decide) (by decide)))
        (ExecStep.opDone _ (by decide)))
      (ExecStep.barrier _ rfl rfl rfl))

end LevelDBBench
